import Mathlib

/-!
Verification of the language-statistics script `scripts/generate_langs.py`.

The script fetches a user's repositories (names and per-repository language
name sets) and a commit count per repository from a hosting API, aggregates
them into language → value mappings, reduces the mapping to the top five
entries plus an "Other" bucket, and renders two donut charts with a legend
into one SVG document.

Shallow embedding conventions:
  - Python dicts (which preserve insertion order) are modelled as association
    lists `List (String × ℚ)`; `d[k] = d.get(k, 0) + v` keeps the position of
    an existing key and appends a fresh key at the end (`dictAdd`).
  - Numeric values are modelled as exact rationals `ℚ` (the script uses
    Python ints and floats; the claims under study are about exact
    quantities, never about float rounding).
  - The network call `fetch_commit_count(repo)` is an external collaborator;
    its result is stored in the `commits` field of `Repo`.
  - Python division raises `ZeroDivisionError` on a zero denominator, so the
    divisions of the script are modelled with `safeDiv` returning `Option`,
    and the functions containing them return `Option` results.
  - `sorted(items, key=value, reverse=True)` is a stable descending sort by
    value; it is modelled by Mathlib's stable `List.insertionSort` with the
    relation `fun a b => b.2 ≤ a.2`.
  - Angles are stored in units of π radians (the script stores radians): the
    start angle `-math.pi / 2` becomes `-1/2`, a wedge's span `frac * 2 * π`
    becomes `frac * 2`, and the test `delta > math.pi` becomes `delta > 1`.
-/

namespace GenerateLangs

set_option maxRecDepth 8000

/-- Config constant `TOP_N = 5` from the script. -/
def TOP_N : Nat := 5

/-- Config constant `EXCLUDED_LANGUAGES = set()` from the script (empty). -/
def EXCLUDED_LANGUAGES : List String := []

/-- Config constant `COLORS`, the fixed eight-color palette of the script. -/
def COLORS : List String :=
  ["#f97316", "#22c55e", "#38bdf8", "#a78bfa",
   "#f43f5e", "#eab308", "#14b8a6", "#fb7185"]

/-- Config constant `TEXT_COLOR` from the script. -/
def TEXT_COLOR : String := "#e5e7eb"

/-- One repository as seen by the aggregation functions: its name, the set of
language names reported by the API (`{e["node"]["name"] for e in
r["languages"]["edges"]}`, modelled as a duplicate-free list in the set's
iteration order), and the result of the external `fetch_commit_count` call. -/
structure Repo where
  name : String
  langs : List String
  commits : Nat
deriving DecidableEq

/-- Python `d[k] = d.get(k, 0) + v` on an insertion-ordered dict: an existing
key keeps its position and its value is increased, a fresh key is appended. -/
def dictAdd (k : String) (v : ℚ) (d : List (String × ℚ)) : List (String × ℚ) :=
  if d.any (fun p => p.1 == k) then
    d.map (fun p => if p.1 == k then (p.1, p.2 + v) else p)
  else d ++ [(k, v)]

/-- The per-language step of both aggregation loops: skip excluded languages,
otherwise add `v` to the language's entry. -/
def langStep (v : ℚ) (counts : List (String × ℚ)) (lang : String) :
    List (String × ℚ) :=
  if EXCLUDED_LANGUAGES.contains lang then counts else dictAdd lang v counts

/-- The loop of `languages_by_repo_count`, with the accumulator dict
explicit. Each repository adds 1 per (non-excluded) language it reports. -/
def lbrcGo : List (String × ℚ) → List Repo → List (String × ℚ)
  | counts, [] => counts
  | counts, r :: rest => lbrcGo (r.langs.foldl (langStep 1) counts) rest

/-- `languages_by_repo_count(repos)` from the script. -/
def languages_by_repo_count (repos : List Repo) : List (String × ℚ) :=
  lbrcGo [] repos

/-- Division as Python evaluates it: `ZeroDivisionError` (here `none`) on a
zero denominator. -/
def safeDiv (a b : ℚ) : Option ℚ := if b = 0 then none else some (a / b)

/-- The loop of `commit_weighted_languages`, with the accumulator dict
explicit. A repository with no languages is skipped (`if not langs:
continue`); otherwise `weight = commits / len(langs)` is added to each
(non-excluded) language. -/
def cwlGo : List (String × ℚ) → List Repo → Option (List (String × ℚ))
  | weighted, [] => some weighted
  | weighted, r :: rest =>
    if r.langs.isEmpty then cwlGo weighted rest
    else
      match safeDiv (r.commits : ℚ) (r.langs.length : ℚ) with
      | none => none
      | some weight => cwlGo (r.langs.foldl (langStep weight) weighted) rest

/-- `commit_weighted_languages(repos)` from the script (with the per-repo
commit counts supplied in the `Repo` records). -/
def commit_weighted_languages (repos : List Repo) :
    Option (List (String × ℚ)) :=
  cwlGo [] repos

/-- The comparison used by `sorted(data.items(), key=lambda x: x[1],
reverse=True)`: descending by value. -/
def valGe (a b : String × ℚ) : Prop := b.2 ≤ a.2

instance : DecidableRel valGe := fun a b => inferInstanceAs (Decidable (b.2 ≤ a.2))

instance : IsTotal (String × ℚ) valGe := ⟨fun a b => (le_total b.2 a.2)⟩

instance : IsTrans (String × ℚ) valGe := ⟨fun _ _ _ h1 h2 => le_trans h2 h1⟩

/-- Python's `sorted(..., key=lambda x: x[1], reverse=True)`: a stable
descending sort by value, modelled by stable insertion sort. -/
def sortDesc (l : List (String × ℚ)) : List (String × ℚ) :=
  List.insertionSort valGe l

/-- `sum(v for _, v in l)`. -/
def sumValues (l : List (String × ℚ)) : ℚ := (l.map Prod.snd).sum

/-- `top_n_with_other(data)` from the script: sort descending by value, keep
the first `TOP_N`, and append `("Other", s)` where `s` is the sum of the
remaining values, but only when that sum is strictly positive. -/
def top_n_with_other (data : List (String × ℚ)) : List (String × ℚ) :=
  let items := sortDesc data
  let top := items.take TOP_N
  let other := sumValues (items.drop TOP_N)
  if other > 0 then top ++ [("Other", other)] else top

/-- The value of the "Other" bucket before the positivity test: the sum of
the values beyond the top `TOP_N` after sorting. -/
def restSum (data : List (String × ℚ)) : ℚ :=
  sumValues ((sortDesc data).drop TOP_N)

/-- Python `round` on an exact rational: round half to even. -/
def pyRound (q : ℚ) : ℤ :=
  if q - ⌊q⌋ < 1 / 2 then ⌊q⌋
  else if 1 / 2 < q - ⌊q⌋ then ⌊q⌋ + 1
  else if ⌊q⌋ % 2 = 0 then ⌊q⌋ else ⌊q⌋ + 1

/-- One annular wedge as emitted by `pie_paths`: the data of the SVG path
string `M(x1,y1) A r_outer … large 1 (x2,y2) L(x3,y3) A r_inner … large 0
(x4,y4) Z` together with its label, color and displayed percentage. The
four corner points are `(cx + r cos(a·π), cy + r sin(a·π))` for
`r ∈ {rOuter, rInner}` and `a ∈ {a1, a2}` (angles in units of π radians).
`outerSweep` and `innerSweep` are the sweep flags the script writes
literally into the two arc commands. -/
structure Wedge where
  cx : ℚ
  cy : ℚ
  rOuter : ℚ
  rInner : ℚ
  label : String
  frac : ℚ
  a1 : ℚ
  a2 : ℚ
  large : Nat
  outerSweep : Nat
  innerSweep : Nat
  color : String
  percent : ℤ
deriving DecidableEq

/-- `COLORS[i % len(COLORS)]` from the script. -/
def colorOfIndex (i : Nat) : String := COLORS.getD (i % COLORS.length) ""

/-- The loop of `pie_paths`, carrying the running start angle (in units of π
radians; the loop starts at `-1/2`, i.e. `-math.pi / 2`) and the entry index
`i` used for the color lookup. Each entry divides its value by the
precomputed total (`none` on division by zero, as Python raises), spans
`delta = frac * 2` (i.e. `frac * 2π` radians), sets the large-arc flag to 1
exactly when `delta > 1` (i.e. `delta > math.pi` in radians), and writes
sweep flag 1 on the outer arc and 0 on the inner arc. -/
def pieGo (total cx cy ro ri : ℚ) : Nat → ℚ → List (String × ℚ) →
    Option (List Wedge)
  | _, _, [] => some []
  | i, angle, (label, value) :: rest =>
    match safeDiv value total with
    | none => none
    | some frac =>
      match pieGo total cx cy ro ri (i + 1) (angle + frac * 2) rest with
      | none => none
      | some ws =>
        some ({ cx := cx, cy := cy, rOuter := ro, rInner := ri,
                label := label, frac := frac,
                a1 := angle, a2 := angle + frac * 2,
                large := if 1 < frac * 2 then 1 else 0,
                outerSweep := 1, innerSweep := 0,
                color := colorOfIndex i,
                percent := pyRound (frac * 100) } :: ws)

/-- `pie_paths(data, cx, cy, r_outer, r_inner)` from the script. -/
def pie_paths (data : List (String × ℚ)) (cx cy ro ri : ℚ) :
    Option (List Wedge) :=
  pieGo (sumValues data) cx cy ro ri 0 (-(1 / 2)) data

/-- Python `d[k] = v` on an insertion-ordered dict of strings: an existing
key keeps its position and gets the new value, a fresh key is appended. -/
def dictSet (k v : String) (d : List (String × String)) :
    List (String × String) :=
  if d.any (fun p => p.1 == k) then
    d.map (fun p => if p.1 == k then (p.1, v) else p)
  else d ++ [(k, v)]

/-- The `legend_items` dict of `render_combined_svg`: for every wedge of the
two pies, in order, `legend_items[label] = color`. Only the label and the
color of each wedge are consulted. -/
def legendItems (pies : List Wedge) : List (String × String) :=
  pies.foldl (fun acc w => dictSet w.label w.color acc) []

/-- One legend block of `render_combined_svg`, exactly as the f-string
builds it for index `i` (`y = 300 + i * 18`): a color swatch rect and a
text element holding the label. -/
def legendEntry (i : Nat) (label color : String) : String :=
  "\n        <rect x=\"40\" y=\"" ++ toString (300 + i * 18 - 10) ++
  "\" width=\"12\" height=\"12\" fill=\"" ++ color ++
  "\" rx=\"2\"/>\n        <text x=\"60\" y=\"" ++ toString (300 + i * 18) ++
  "\" font-size=\"12\" fill=\"" ++ TEXT_COLOR ++ "\">\n          " ++
  label ++ "\n        </text>\n        "

/-- The legend-accumulation loop of `render_combined_svg` over
`enumerate(legend_items.items())`. -/
def legendGo : Nat → List (String × String) → String
  | _, [] => ""
  | i, (label, color) :: rest => legendEntry i label color ++ legendGo (i + 1) rest

/-- The full `legend` string of `render_combined_svg`, as a function of the
wedges of the two pies. -/
def legendString (pies : List Wedge) : String :=
  legendGo 0 (legendItems pies)

/-- The legend portion of the SVG document `render_combined_svg` writes: the
two pies are laid out at centers (170,160) and (430,160) with radii 85/52,
their wedges are merged into `legend_items`, and the legend is rendered.
Returns `none` when either `pie_paths` call raises (division by zero). -/
def renderLegend (repo_data commit_data : List (String × ℚ)) : Option String :=
  match pie_paths (top_n_with_other repo_data) 170 160 85 52,
        pie_paths (top_n_with_other commit_data) 430 160 85 52 with
  | some rp, some cp => some (legendString (rp ++ cp))
  | _, _ => none

/-! ## Basic facts about the stable descending sort and value sums -/

theorem sortDesc_perm (l : List (String × ℚ)) : List.Perm (sortDesc l) l :=
  List.perm_insertionSort valGe l

theorem sortDesc_sorted (l : List (String × ℚ)) : List.Sorted valGe (sortDesc l) :=
  List.sorted_insertionSort valGe l

theorem sumValues_append (a b : List (String × ℚ)) :
    sumValues (a ++ b) = sumValues a + sumValues b := by
  simp [sumValues]

theorem sumValues_perm {a b : List (String × ℚ)} (h : List.Perm a b) :
    sumValues a = sumValues b :=
  (h.map Prod.snd).sum_eq

theorem sumValues_nonneg {l : List (String × ℚ)} (h : ∀ p ∈ l, 0 ≤ p.2) :
    0 ≤ sumValues l := by
  refine List.sum_nonneg fun x hx => ?_
  obtain ⟨p, hp, rfl⟩ := List.mem_map.mp hx
  exact h p hp

/-- `top_n_with_other` with its local bindings unfolded. -/
theorem top_n_with_other_eq (data : List (String × ℚ)) :
    top_n_with_other data =
      if restSum data > 0 then
        (sortDesc data).take TOP_N ++ [("Other", restSum data)]
      else (sortDesc data).take TOP_N := rfl

theorem take_add_restSum (data : List (String × ℚ)) :
    sumValues ((sortDesc data).take TOP_N) + restSum data = sumValues data := by
  rw [restSum, ← sumValues_append, List.take_append_drop]
  exact sumValues_perm (sortDesc_perm data)

theorem restSum_nonneg {data : List (String × ℚ)} (h : ∀ p ∈ data, 0 ≤ p.2) :
    0 ≤ restSum data := by
  refine sumValues_nonneg fun p hp => ?_
  exact h p ((sortDesc_perm data).mem_iff.mp (List.mem_of_mem_drop hp))

/-- Claim C1: for every aggregate mapping with non-negative values, the sum
of the values in the list returned by `top_n_with_other` equals the sum of
the values of the input mapping — the Top-N reduction is value-conserving,
including the synthetic "Other" entry when present. -/
theorem C1_topn_value_conserving (data : List (String × ℚ))
    (h : ∀ p ∈ data, 0 ≤ p.2) :
    sumValues (top_n_with_other data) = sumValues data := by
  rw [top_n_with_other_eq]
  by_cases hpos : restSum data > 0
  · rw [if_pos hpos, sumValues_append]
    have hone : sumValues [("Other", restSum data)] = restSum data := by
      simp [sumValues]
    rw [hone, take_add_restSum]
  · rw [if_neg hpos]
    have h0 : restSum data = 0 := le_antisymm (not_lt.mp hpos) (restSum_nonneg h)
    have := take_add_restSum data
    rw [h0, add_zero] at this
    exact this

/-- Concrete input exercising `C1_topn_value_conserving`, with seven
entries so that the "Other" bucket is really produced. -/
def dataC1 : List (String × ℚ) :=
  [("a", 10), ("b", 9), ("c", 8), ("d", 7), ("e", 6), ("f", 5), ("g", 5)]

theorem C1_topn_value_conserving_witness :
    (∀ p ∈ dataC1, 0 ≤ p.2) ∧
      sumValues (top_n_with_other dataC1) = sumValues dataC1 :=
  ⟨by with_unfolding_all decide,
   C1_topn_value_conserving dataC1 (by with_unfolding_all decide)⟩

/-- Claim C3: the synthetic "Other" entry is strictly positive whenever it
is appended, and it is absent when the input has at most `TOP_N` entries or
when the values beyond the top `TOP_N` sum to zero. -/
theorem C3_other_positive_or_absent (data : List (String × ℚ))
    (h : ∀ p ∈ data, 0 ≤ p.2) :
    (∀ s : ℚ,
        top_n_with_other data = (sortDesc data).take TOP_N ++ [("Other", s)] →
        0 < s)
    ∧ (data.length ≤ TOP_N → top_n_with_other data = sortDesc data)
    ∧ (restSum data = 0 →
        top_n_with_other data = (sortDesc data).take TOP_N) := by
  refine ⟨?_, ?_, ?_⟩
  · intro s hs
    rw [top_n_with_other_eq] at hs
    by_cases hpos : restSum data > 0
    · rw [if_pos hpos] at hs
      have := List.append_cancel_left hs
      simp only [List.cons.injEq, Prod.mk.injEq] at this
      rw [← this.1.2]
      exact hpos
    · rw [if_neg hpos] at hs
      have := congrArg List.length hs
      simp at this
  · intro hlen
    have hdrop : (sortDesc data).drop TOP_N = [] := by
      refine List.drop_eq_nil_of_le ?_
      rw [(sortDesc_perm data).length_eq]
      exact hlen
    have h0 : restSum data = 0 := by simp [restSum, hdrop, sumValues]
    rw [top_n_with_other_eq, if_neg (by rw [h0]; exact lt_irrefl 0)]
    refine List.take_of_length_le ?_
    rw [(sortDesc_perm data).length_eq]
    exact hlen
  · intro h0
    rw [top_n_with_other_eq, if_neg (by rw [h0]; exact lt_irrefl 0)]

/-- Concrete input exercising `C3_other_positive_or_absent`: two entries,
so the "Other" bucket must be absent. -/
def dataC3 : List (String × ℚ) := [("x", 3), ("y", 2)]

theorem C3_other_positive_or_absent_witness :
    (∀ p ∈ dataC3, 0 ≤ p.2) ∧
      ((∀ s : ℚ,
          top_n_with_other dataC3 =
            (sortDesc dataC3).take TOP_N ++ [("Other", s)] → 0 < s)
        ∧ (dataC3.length ≤ TOP_N → top_n_with_other dataC3 = sortDesc dataC3)
        ∧ (restSum dataC3 = 0 →
            top_n_with_other dataC3 = (sortDesc dataC3).take TOP_N)) :=
  ⟨by with_unfolding_all decide,
   C3_other_positive_or_absent dataC3 (by with_unfolding_all decide)⟩

/-! ## Stability of the sort, and the ordering of the reduced list -/

theorem filter_orderedInsert (v : ℚ) (a : String × ℚ)
    (l : List (String × ℚ)) :
    (List.orderedInsert valGe a l).filter (fun p => decide (p.2 = v)) =
      if a.2 = v then a :: l.filter (fun p => decide (p.2 = v))
      else l.filter (fun p => decide (p.2 = v)) := by
  induction l with
  | nil =>
    simp only [List.orderedInsert]
    by_cases hav : a.2 = v <;> simp [hav]
  | cons b l ih =>
    simp only [List.orderedInsert]
    by_cases hab : valGe a b
    · rw [if_pos hab]
      by_cases hav : a.2 = v <;> by_cases hbv : b.2 = v <;>
        simp [hav, hbv]
    · rw [if_neg hab]
      by_cases hbv : b.2 = v
      · have hav : ¬a.2 = v := fun hv =>
          hab (le_of_eq (hbv.trans hv.symm))
        simp [hbv, hav, ih]
      · by_cases hav : a.2 = v <;> simp [hbv, hav, ih]

/-- Stability of the descending sort: for each value `v`, the entries of
value `v` appear in the sorted list exactly in their input order. -/
theorem sortDesc_filter (v : ℚ) (l : List (String × ℚ)) :
    (sortDesc l).filter (fun p => decide (p.2 = v)) =
      l.filter (fun p => decide (p.2 = v)) := by
  induction l with
  | nil => rfl
  | cons a l ih =>
    show (List.orderedInsert valGe a (sortDesc l)).filter _ = _
    rw [filter_orderedInsert]
    by_cases hav : a.2 = v <;> simp [hav, ih]

/-- The first `TOP_N` entries of the reduced list are exactly the first
`TOP_N` entries of the sorted input (the appended "Other" entry never lands
among them). -/
theorem topn_take_eq (data : List (String × ℚ)) :
    (top_n_with_other data).take TOP_N = (sortDesc data).take TOP_N := by
  rw [top_n_with_other_eq]
  by_cases hpos : restSum data > 0
  · rw [if_pos hpos]
    have hdrop : (sortDesc data).drop TOP_N ≠ [] := by
      intro hnil
      rw [restSum, hnil] at hpos
      simp [sumValues] at hpos
    have hlen : ((sortDesc data).take TOP_N).length = TOP_N := by
      rw [List.length_take]
      refine Nat.min_eq_left ?_
      by_contra hlt
      exact hdrop (List.drop_eq_nil_of_le (le_of_not_le hlt))
    rw [List.take_append_eq_append_take, hlen, Nat.sub_self, List.take_take,
      Nat.min_self, List.take_zero, List.append_nil]
  · rw [if_neg hpos, List.take_take, Nat.min_self]

/-- Claim C4: the reduced list is sorted descending by value over its first
`min(TOP_N, size)` entries; ties between equal values keep the insertion
order of the input mapping (for each value `v`, the kept entries of value
`v` form a prefix of the input's entries of value `v`, in input order); and
the "Other" entry, when present, is placed last regardless of magnitude. -/
theorem C4_output_ordering (data : List (String × ℚ)) :
    List.Sorted valGe ((top_n_with_other data).take TOP_N)
    ∧ (∀ v : ℚ, List.IsPrefix
        (((top_n_with_other data).take TOP_N).filter
          (fun p => decide (p.2 = v)))
        (data.filter (fun p => decide (p.2 = v))))
    ∧ (restSum data > 0 →
        top_n_with_other data =
          (sortDesc data).take TOP_N ++ [("Other", restSum data)]) := by
  refine ⟨?_, ?_, ?_⟩
  · rw [topn_take_eq]
    exact (sortDesc_sorted data).sublist (List.take_sublist _ _)
  · intro v
    rw [topn_take_eq, ← sortDesc_filter v data]
    refine ⟨((sortDesc data).drop TOP_N).filter (fun p => decide (p.2 = v)), ?_⟩
    rw [← List.filter_append, List.take_append_drop]
  · intro hpos
    rw [top_n_with_other_eq, if_pos hpos]

/-- Concrete input exercising `C4_output_ordering`: ten entries whose
"Other" bucket (value 25) exceeds every kept entry except the first. -/
def dataC4 : List (String × ℚ) :=
  [("p", 10), ("q", 9), ("r", 8), ("s", 7), ("t", 6),
   ("u", 5), ("v", 5), ("w", 5), ("x", 5), ("y", 5)]

theorem C4_output_ordering_witness :
    restSum dataC4 > 0 ∧
      top_n_with_other dataC4 =
        (sortDesc dataC4).take TOP_N ++ [("Other", restSum dataC4)] :=
  ⟨by with_unfolding_all decide,
   (C4_output_ordering dataC4).2.2 (by with_unfolding_all decide)⟩

/-! ## The commit-weighted aggregation on the spec's worked example -/

/-- Repository A of the spec's worked example: languages Go and Py, 10
commits. (The script only fetches language names, never byte sizes, so the
sizes `{Go: 100, Py: 50}` of the example can play no role.) -/
def repoA : Repo := ⟨"A", ["Go", "Py"], 10⟩

/-- Repository B of the spec's worked example: language Go, 4 commits. -/
def repoB : Repo := ⟨"B", ["Go"], 4⟩

/-- Claim C2 counterexample: on the spec's worked example the even-split
policy of `commit_weighted_languages` gives Go the weight
`10/2 + 4/1 = 9`, not the claimed `10.67` (nor its unrounded value
`32/3`); the claimed numbers come from the proportional-by-bytes formula,
which the script does not implement. -/
theorem C2_even_split_counterexample :
    (commit_weighted_languages [repoA, repoB]).bind (List.lookup "Go")
      = some 9
    ∧ (9 : ℚ) ≠ 1067 / 100 ∧ (9 : ℚ) ≠ 32 / 3 := by
  with_unfolding_all decide

/-- Claim C2, amended: for repositories A (languages Go, Py; 10 commits)
and B (language Go; 4 commits), the even-split commit-weighted aggregation
yields Go = 9 (= 10/2 + 4/1) and Py = 5 (= 10/2). -/
theorem C2_even_split_example :
    (commit_weighted_languages [repoA, repoB]).bind (List.lookup "Go")
      = some 9
    ∧ (commit_weighted_languages [repoA, repoB]).bind (List.lookup "Py")
      = some 5 := by
  with_unfolding_all decide

/-! ## Empty-language repositories and the division guard -/

theorem lbrcGo_append (a b : List Repo) :
    ∀ acc, lbrcGo acc (a ++ b) = lbrcGo (lbrcGo acc a) b := by
  induction a with
  | nil => intro acc; rfl
  | cons r rest ih =>
    intro acc
    simp only [List.cons_append, lbrcGo, List.append_eq]
    exact ih _

theorem cwlGo_append (a b : List Repo) :
    ∀ acc, cwlGo acc (a ++ b) =
      (cwlGo acc a).bind (fun acc2 => cwlGo acc2 b) := by
  induction a with
  | nil => intro acc; rfl
  | cons r rest ih =>
    intro acc
    simp only [List.cons_append, cwlGo, List.append_eq]
    by_cases he : r.langs.isEmpty
    · rw [if_pos he, if_pos he, ih]
    · rw [if_neg he, if_neg he]
      cases safeDiv (r.commits : ℚ) (r.langs.length : ℚ) with
      | none => rfl
      | some weight => exact ih _

theorem cwlGo_isSome (repos : List Repo) :
    ∀ acc, (cwlGo acc repos).isSome = true := by
  induction repos with
  | nil => intro acc; rfl
  | cons r rest ih =>
    intro acc
    simp only [cwlGo]
    by_cases he : r.langs.isEmpty
    · rw [if_pos he]; exact ih acc
    · rw [if_neg he]
      have hlen : (r.langs.length : ℚ) ≠ 0 := by
        have : r.langs ≠ [] := fun hnil => he (by rw [hnil]; rfl)
        have hpos : 0 < r.langs.length := List.length_pos.mpr this
        exact_mod_cast Nat.pos_iff_ne_zero.mp hpos
      rw [safeDiv, if_neg hlen]
      exact ih _

/-- Claim C9: a repository reporting no languages contributes nothing to
either aggregation (removing it changes neither result and raises no
error), and in `commit_weighted_languages` the division
`commits / len(langs)` sits behind the `if not langs: continue` guard, so
the division by zero never fires and the function always returns a result
(`isSome`). -/
theorem C9_empty_repo_skipped (l1 l2 : List Repo) (r : Repo)
    (hr : r.langs = []) (repos : List Repo) :
    languages_by_repo_count (l1 ++ r :: l2) = languages_by_repo_count (l1 ++ l2)
    ∧ commit_weighted_languages (l1 ++ r :: l2)
        = commit_weighted_languages (l1 ++ l2)
    ∧ (commit_weighted_languages repos).isSome = true := by
  have hre : r.langs.isEmpty = true := by rw [hr]; rfl
  refine ⟨?_, ?_, cwlGo_isSome repos []⟩
  · rw [languages_by_repo_count, languages_by_repo_count,
      lbrcGo_append, lbrcGo_append]
    show lbrcGo (r.langs.foldl (langStep 1) _) l2 = _
    rw [hr]
    rfl
  · rw [commit_weighted_languages, commit_weighted_languages,
      cwlGo_append, cwlGo_append]
    refine congrArg _ (funext fun acc => ?_)
    show cwlGo acc (r :: l2) = cwlGo acc l2
    simp only [cwlGo, if_pos hre]

/-- A repository with no languages, and a small surrounding list, for
exercising `C9_empty_repo_skipped`. -/
def repoEmpty : Repo := ⟨"empty", [], 3⟩

/-- A one-language repository used next to `repoEmpty`. -/
def repoGo : Repo := ⟨"onlygo", ["Go"], 2⟩

theorem C9_empty_repo_skipped_witness :
    repoEmpty.langs = [] ∧
      (languages_by_repo_count ([repoGo] ++ repoEmpty :: [])
          = languages_by_repo_count ([repoGo] ++ [])
        ∧ commit_weighted_languages ([repoGo] ++ repoEmpty :: [])
            = commit_weighted_languages ([repoGo] ++ [])
        ∧ (commit_weighted_languages [repoEmpty, repoGo]).isSome = true) :=
  ⟨rfl, C9_empty_repo_skipped [repoGo] [] repoEmpty rfl [repoEmpty, repoGo]⟩

/-! ## Pie geometry: flags, fractions, colors -/

theorem pieGo_flags (total cx cy ro ri : ℚ) :
    ∀ (data : List (String × ℚ)) (i : Nat) (angle : ℚ) (ws : List Wedge),
      pieGo total cx cy ro ri i angle data = some ws →
      ∀ w ∈ ws, (w.large = 1 ↔ 1 < w.a2 - w.a1)
        ∧ w.outerSweep = 1 ∧ w.innerSweep = 0 := by
  intro data
  induction data with
  | nil =>
    intro i angle ws h w hw
    simp only [pieGo, Option.some.injEq] at h
    subst h
    simp at hw
  | cons p rest ih =>
    intro i angle ws h w hw
    obtain ⟨label, value⟩ := p
    simp only [pieGo] at h
    cases hdiv : safeDiv value total with
    | none => simp only [hdiv] at h; exact Option.noConfusion h
    | some frac =>
      simp only [hdiv] at h
      cases hrec : pieGo total cx cy ro ri (i + 1) (angle + frac * 2) rest with
      | none => simp only [hrec] at h; exact Option.noConfusion h
      | some ws2 =>
        simp only [hrec, Option.some.injEq] at h
        subst h
        rcases List.mem_cons.mp hw with hw | hw
        · subst hw
          refine ⟨?_, rfl, rfl⟩
          show (if 1 < frac * 2 then 1 else 0) = 1 ↔ 1 < angle + frac * 2 - angle
          have ha : angle + frac * 2 - angle = frac * 2 := by ring
          rw [ha]
          by_cases hlt : 1 < frac * 2 <;> simp [hlt]
        · exact ih (i + 1) _ ws2 hrec w hw

/-- Claim C5: every wedge emitted by `pie_paths` sets the large-arc flag to
1 exactly when its angular span exceeds 180 degrees (`a2 - a1 > 1` in
units of π radians, i.e. `delta > math.pi` in the script), and every wedge
writes sweep flag 1 on its outer arc and sweep flag 0 on its inner arc. -/
theorem C5_arc_flags (data : List (String × ℚ)) (cx cy ro ri : ℚ)
    (ws : List Wedge) (h : pie_paths data cx cy ro ri = some ws) :
    ∀ w ∈ ws, (w.large = 1 ↔ 1 < w.a2 - w.a1)
      ∧ w.outerSweep = 1 ∧ w.innerSweep = 0 :=
  pieGo_flags (sumValues data) cx cy ro ri data 0 (-(1 / 2)) ws h

/-- Concrete input exercising `C5_arc_flags`: a wedge of span 270 degrees
(large-arc 1) followed by one of span 90 degrees (large-arc 0). -/
def dataC5 : List (String × ℚ) := [("Go", 3), ("Py", 1)]

/-- The wedges `pie_paths` computes for `dataC5`. -/
def wsC5 : List Wedge := (pie_paths dataC5 170 160 85 52).getD []

theorem C5_arc_flags_witness :
    pie_paths dataC5 170 160 85 52 = some wsC5 ∧
      ∀ w ∈ wsC5, (w.large = 1 ↔ 1 < w.a2 - w.a1)
        ∧ w.outerSweep = 1 ∧ w.innerSweep = 0 :=
  ⟨by with_unfolding_all decide,
   C5_arc_flags dataC5 170 160 85 52 wsC5 (by with_unfolding_all decide)⟩

theorem pieGo_total (total cx cy ro ri : ℚ) (htot : total ≠ 0) :
    ∀ (data : List (String × ℚ)) (i : Nat) (angle : ℚ),
      ∃ ws, pieGo total cx cy ro ri i angle data = some ws
        ∧ ws.map Wedge.frac = data.map (fun p => p.2 / total) := by
  intro data
  induction data with
  | nil => intro i angle; exact ⟨[], rfl, rfl⟩
  | cons p rest ih =>
    intro i angle
    obtain ⟨label, value⟩ := p
    obtain ⟨ws2, hws2, hmap⟩ := ih (i + 1) (angle + value / total * 2)
    have hdiv : safeDiv value total = some (value / total) := by
      rw [safeDiv, if_neg htot]
    have hstep : pieGo total cx cy ro ri i angle ((label, value) :: rest)
        = some ({ cx := cx, cy := cy, rOuter := ro, rInner := ri,
                  label := label, frac := value / total, a1 := angle,
                  a2 := angle + value / total * 2,
                  large := if 1 < value / total * 2 then 1 else 0,
                  outerSweep := 1, innerSweep := 0, color := colorOfIndex i,
                  percent := pyRound (value / total * 100) } :: ws2) := by
      simp only [pieGo, hdiv, hws2]
    exact ⟨_, hstep, by simp [hmap]⟩

/-- Claim C10: with a nonempty entry list of non-negative values and a
strictly positive total, `pie_paths` succeeds, every fraction lies in
[0, 1], and the fractions sum to 1; the positivity precondition is
necessary, because on the reachable input `[("Go", 0)]` the unguarded
division `value / total` divides by zero and the call fails. -/
theorem C10_fractions (data : List (String × ℚ)) (cx cy ro ri : ℚ)
    (hne : data ≠ []) (h : ∀ p ∈ data, 0 ≤ p.2)
    (hpos : 0 < sumValues data) :
    (∃ ws, pie_paths data cx cy ro ri = some ws
      ∧ (∀ w ∈ ws, 0 ≤ w.frac ∧ w.frac ≤ 1)
      ∧ (ws.map Wedge.frac).sum = 1)
    ∧ pie_paths [("Go", 0)] cx cy ro ri = none := by
  constructor
  · obtain ⟨ws, hws, hmap⟩ :=
      pieGo_total (sumValues data) cx cy ro ri (ne_of_gt hpos) data 0 (-(1 / 2))
    refine ⟨ws, hws, ?_, ?_⟩
    · intro w hw
      have hmem : w.frac ∈ ws.map Wedge.frac := List.mem_map_of_mem _ hw
      rw [hmap] at hmem
      obtain ⟨p, hp, hfrac⟩ := List.mem_map.mp hmem
      have hle : p.2 ≤ sumValues data := by
        refine List.single_le_sum ?_ _ (List.mem_map_of_mem Prod.snd hp)
        intro x hx
        obtain ⟨q, hq, rfl⟩ := List.mem_map.mp hx
        exact h q hq
      rw [← hfrac]
      exact ⟨div_nonneg (h p hp) (le_of_lt hpos), (div_le_one hpos).mpr hle⟩
    · rw [hmap]
      have hsum : (data.map fun p => p.2 / sumValues data).sum
          = (data.map Prod.snd).sum * (sumValues data)⁻¹ := by
        simp only [div_eq_mul_inv]
        exact List.sum_map_mul_right data Prod.snd _
      rw [hsum]
      show sumValues data * (sumValues data)⁻¹ = 1
      exact mul_inv_cancel₀ (ne_of_gt hpos)
  · show pieGo (sumValues [("Go", 0)]) cx cy ro ri 0 (-(1 / 2)) [("Go", 0)] = none
    have h0 : sumValues [("Go", (0 : ℚ))] = 0 := by simp [sumValues]
    rw [h0]
    simp [pieGo, safeDiv]

/-- Concrete input exercising `C10_fractions`. -/
def dataC10 : List (String × ℚ) := [("Rust", 1), ("Zig", 3)]

theorem C10_fractions_witness :
    dataC10 ≠ [] ∧ (∀ p ∈ dataC10, 0 ≤ p.2) ∧ 0 < sumValues dataC10 ∧
      ((∃ ws, pie_paths dataC10 300 200 80 50 = some ws
          ∧ (∀ w ∈ ws, 0 ≤ w.frac ∧ w.frac ≤ 1)
          ∧ (ws.map Wedge.frac).sum = 1)
        ∧ pie_paths [("Go", 0)] 300 200 80 50 = none) :=
  ⟨by with_unfolding_all decide, by with_unfolding_all decide,
   by with_unfolding_all decide,
   C10_fractions dataC10 300 200 80 50 (by with_unfolding_all decide)
     (by with_unfolding_all decide) (by with_unfolding_all decide)⟩

/-! ## The single-entry pie: a degenerate 360-degree arc -/

/-- The wedge `pie_paths` emits for the single entry `[("Solo", 1)]` at the
script's left pie position: fraction 1, start angle `-1/2`·π, end angle
`3/2`·π, large-arc flag 1, no special-casing. -/
def wSolo : Wedge :=
  { cx := 170, cy := 160, rOuter := 85, rInner := 52, label := "Solo",
    frac := 1, a1 := -(1 / 2), a2 := 3 / 2, large := 1, outerSweep := 1,
    innerSweep := 0, color := "#f97316", percent := 100 }

/-- Claim C6, checked against the code: a single entry (fraction exactly 1)
does produce large-arc flag 1 and end angle = start angle + 360 degrees,
but there is no special case: the wedge goes through the generic arc
construction, and because `cos` and `sin` have period 2π, all four corner
points of the path coincide pairwise — the two emitted arc commands run
from a point to that same point, i.e. the path is the degenerate arc the
spec demands be avoided. -/
theorem C6_single_entry_degenerate :
    pie_paths [("Solo", 1)] 170 160 85 52 = some [wSolo]
    ∧ wSolo.large = 1
    ∧ wSolo.a2 = wSolo.a1 + 2
    ∧ ((wSolo.cx : ℝ) + (wSolo.rOuter : ℝ)
          * Real.cos ((wSolo.a2 : ℝ) * Real.pi)
        = (wSolo.cx : ℝ) + (wSolo.rOuter : ℝ)
          * Real.cos ((wSolo.a1 : ℝ) * Real.pi))
    ∧ ((wSolo.cy : ℝ) + (wSolo.rOuter : ℝ)
          * Real.sin ((wSolo.a2 : ℝ) * Real.pi)
        = (wSolo.cy : ℝ) + (wSolo.rOuter : ℝ)
          * Real.sin ((wSolo.a1 : ℝ) * Real.pi))
    ∧ ((wSolo.cx : ℝ) + (wSolo.rInner : ℝ)
          * Real.cos ((wSolo.a2 : ℝ) * Real.pi)
        = (wSolo.cx : ℝ) + (wSolo.rInner : ℝ)
          * Real.cos ((wSolo.a1 : ℝ) * Real.pi))
    ∧ ((wSolo.cy : ℝ) + (wSolo.rInner : ℝ)
          * Real.sin ((wSolo.a2 : ℝ) * Real.pi)
        = (wSolo.cy : ℝ) + (wSolo.rInner : ℝ)
          * Real.sin ((wSolo.a1 : ℝ) * Real.pi)) := by
  have hangle : ((wSolo.a2 : ℝ)) * Real.pi
      = (wSolo.a1 : ℝ) * Real.pi + 2 * Real.pi := by
    show ((3 / 2 : ℚ) : ℝ) * Real.pi = ((-(1 / 2) : ℚ) : ℝ) * Real.pi + 2 * Real.pi
    push_cast
    ring
  have hcos : Real.cos ((wSolo.a2 : ℝ) * Real.pi)
      = Real.cos ((wSolo.a1 : ℝ) * Real.pi) := by
    rw [hangle, Real.cos_add_two_pi]
  have hsin : Real.sin ((wSolo.a2 : ℝ) * Real.pi)
      = Real.sin ((wSolo.a1 : ℝ) * Real.pi) := by
    rw [hangle, Real.sin_add_two_pi]
  exact ⟨by with_unfolding_all decide, rfl, by with_unfolding_all decide,
    by rw [hcos], by rw [hsin], by rw [hcos], by rw [hsin]⟩

/-! ## Color assignment -/

/-- Claim C7 counterexample: `pie_paths` picks colors purely by position
(`COLORS[i % len(COLORS)]`), so an entry labeled "Other" in first position
gets the first palette color while the same label in second position gets
the second — there is no fixed reserved color for the "Other" label. Both
inputs are genuine `top_n_with_other` outputs (a language may be named
"Other"), fed to `pie_paths` at the script's two call sites. -/
theorem C7_no_reserved_other_color :
    ((pie_paths (top_n_with_other [("Other", 2), ("Go", 1)]) 170 160 85 52).bind
        (fun ws => (ws.find? (fun w => w.label == "Other")).map Wedge.color))
      = some "#f97316"
    ∧ ((pie_paths (top_n_with_other [("Go", 2), ("Other", 1)]) 430 160 85 52).bind
        (fun ws => (ws.find? (fun w => w.label == "Other")).map Wedge.color))
      = some "#22c55e"
    ∧ ("#f97316" : String) ≠ "#22c55e" := by
  with_unfolding_all decide

theorem pieGo_labels_colors (total cx cy ro ri : ℚ) :
    ∀ (data : List (String × ℚ)) (i : Nat) (angle : ℚ) (ws : List Wedge),
      pieGo total cx cy ro ri i angle data = some ws →
      ws.map Wedge.label = data.map Prod.fst
      ∧ ws.map Wedge.color
          = (List.range data.length).map (fun j => colorOfIndex (i + j)) := by
  intro data
  induction data with
  | nil =>
    intro i angle ws h
    simp only [pieGo, Option.some.injEq] at h
    subst h
    exact ⟨rfl, rfl⟩
  | cons p rest ih =>
    intro i angle ws h
    obtain ⟨label, value⟩ := p
    simp only [pieGo] at h
    cases hdiv : safeDiv value total with
    | none => simp only [hdiv] at h; exact Option.noConfusion h
    | some frac =>
      simp only [hdiv] at h
      cases hrec : pieGo total cx cy ro ri (i + 1) (angle + frac * 2) rest with
      | none => simp only [hrec] at h; exact Option.noConfusion h
      | some ws2 =>
        simp only [hrec, Option.some.injEq] at h
        subst h
        obtain ⟨ihl, ihc⟩ := ih (i + 1) _ ws2 hrec
        constructor
        · rw [List.map_cons, List.map_cons, ihl]
        · simp only [List.map_cons, ihc, List.length_cons,
            List.range_succ_eq_map, List.map_map]
          refine congrArg₂ _ rfl ?_
          refine List.map_congr_left fun j _ => ?_
          show colorOfIndex (i + 1 + j) = colorOfIndex (i + (j + 1))
          exact congrArg colorOfIndex (by omega)

/-- `COLORS[j % 8]` for `j < n ≤ 8` is just the `j`-th palette color. -/
theorem range_map_colorOfIndex (n : Nat) (hn : n ≤ 8) :
    (List.range n).map colorOfIndex = COLORS.take n := by
  interval_cases n <;> rfl

theorem sortDesc_take_length (data : List (String × ℚ))
    (hpos : restSum data > 0) :
    ((sortDesc data).take TOP_N).length = TOP_N := by
  have hdrop : (sortDesc data).drop TOP_N ≠ [] := by
    intro hnil
    rw [restSum, hnil] at hpos
    simp [sumValues] at hpos
  rw [List.length_take]
  refine Nat.min_eq_left ?_
  by_contra hlt
  exact hdrop (List.drop_eq_nil_of_le (le_of_not_le hlt))

theorem topn_length_le (data : List (String × ℚ)) :
    (top_n_with_other data).length ≤ TOP_N + 1 := by
  rw [top_n_with_other_eq]
  by_cases hpos : restSum data > 0
  · rw [if_pos hpos]
    simp only [List.length_append, List.length_take, List.length_cons,
      List.length_nil]
    omega
  · rw [if_neg hpos]
    simp only [List.length_take]
    omega

theorem topn_length_eq (data : List (String × ℚ))
    (hpos : restSum data > 0) :
    (top_n_with_other data).length = TOP_N + 1 := by
  rw [top_n_with_other_eq, if_pos hpos]
  simp only [List.length_append, List.length_cons, List.length_nil,
    sortDesc_take_length data hpos]

/-- Claim C7, amended: `pie_paths` colors the `i`-th wedge with
`COLORS[i % 8]` regardless of label, so the wedges of a reduced list
(at most `TOP_N + 1` of them) carry the first `length` palette colors in
order, which are pairwise distinct; there is no color reserved for the
"Other" label, but the synthetic "Other" entry of `top_n_with_other` is
always last at index `TOP_N = 5`, so when present it always receives
`COLORS[5] = "#eab308"`. -/
theorem C7_colors_positional (data : List (String × ℚ)) (cx cy ro ri : ℚ)
    (ws : List Wedge)
    (h : pie_paths (top_n_with_other data) cx cy ro ri = some ws) :
    ws.map Wedge.color = COLORS.take ws.length
    ∧ (ws.map Wedge.color).Nodup
    ∧ (restSum data > 0 →
        (ws.map Wedge.label).getLast? = some "Other"
        ∧ (ws.map Wedge.color).getLast? = some "#eab308") := by
  obtain ⟨hlab, hcol⟩ :=
    pieGo_labels_colors (sumValues (top_n_with_other data)) cx cy ro ri
      (top_n_with_other data) 0 (-(1 / 2)) ws h
  have hlen : ws.length = (top_n_with_other data).length := by
    rw [← List.length_map ws Wedge.label, hlab, List.length_map]
  have hle : (top_n_with_other data).length ≤ 8 :=
    le_trans (topn_length_le data) (by norm_num [TOP_N])
  have hcol2 : ws.map Wedge.color = COLORS.take ws.length := by
    rw [hcol, hlen]
    have hz : (List.range (top_n_with_other data).length).map
          (fun j => colorOfIndex (0 + j))
        = (List.range (top_n_with_other data).length).map colorOfIndex := by
      simp
    rw [hz, range_map_colorOfIndex _ hle]
  refine ⟨hcol2, ?_, ?_⟩
  · rw [hcol2]
    exact List.Nodup.sublist (List.take_sublist _ _)
      (by with_unfolding_all decide)
  · intro hpos
    constructor
    · rw [hlab, top_n_with_other_eq, if_pos hpos]
      simp
    · rw [hcol2, hlen, topn_length_eq data hpos]
      with_unfolding_all decide

/-- Concrete input exercising `C7_colors_positional`: seven entries, so the
synthetic "Other" bucket is present. -/
def dataC7 : List (String × ℚ) :=
  [("c1", 7), ("c2", 6), ("c3", 5), ("c4", 4), ("c5", 3), ("c6", 2), ("c7", 1)]

/-- The wedges of the reduced `dataC7` pie. -/
def wsC7 : List Wedge :=
  (pie_paths (top_n_with_other dataC7) 170 160 85 52).getD []

theorem C7_colors_positional_witness :
    pie_paths (top_n_with_other dataC7) 170 160 85 52 = some wsC7 ∧
      restSum dataC7 > 0 ∧
      (wsC7.map Wedge.color = COLORS.take wsC7.length
        ∧ (wsC7.map Wedge.color).Nodup
        ∧ (restSum dataC7 > 0 →
            (wsC7.map Wedge.label).getLast? = some "Other"
            ∧ (wsC7.map Wedge.color).getLast? = some "#eab308")) :=
  ⟨by with_unfolding_all decide, by with_unfolding_all decide,
   C7_colors_positional dataC7 170 160 85 52 wsC7
     (by with_unfolding_all decide)⟩

/-! ## The legend: labels, no percentages -/

/-- `sub` occurs as a contiguous substring of `s`. -/
def strOccurs (sub s : String) : Prop := List.IsInfix sub.data s.data

instance (sub s : String) : Decidable (strOccurs sub s) :=
  inferInstanceAs (Decidable (List.IsInfix sub.data s.data))

theorem strOccurs_of_eq_append (sub pre post s : String)
    (h : s = pre ++ sub ++ post) : strOccurs sub s :=
  ⟨pre.data, post.data, by rw [h, String.data_append, String.data_append]⟩

theorem strOccurs_append_left (sub s t : String) (h : strOccurs sub s) :
    strOccurs sub (s ++ t) := by
  obtain ⟨a, b, hab⟩ := h
  exact ⟨a, b ++ t.data, by rw [String.data_append, ← hab]; simp⟩

theorem strOccurs_append_right (sub s t : String) (h : strOccurs sub t) :
    strOccurs sub (s ++ t) := by
  obtain ⟨a, b, hab⟩ := h
  exact ⟨s.data ++ a, b, by rw [String.data_append, ← hab]; simp⟩

theorem legendEntry_label (i : Nat) (l c : String) :
    strOccurs l (legendEntry i l c) :=
  strOccurs_of_eq_append l
    ("\n        <rect x=\"40\" y=\"" ++ toString (300 + i * 18 - 10) ++
     "\" width=\"12\" height=\"12\" fill=\"" ++ c ++
     "\" rx=\"2\"/>\n        <text x=\"60\" y=\"" ++ toString (300 + i * 18) ++
     "\" font-size=\"12\" fill=\"" ++ TEXT_COLOR ++ "\">\n          ")
    "\n        </text>\n        " _ rfl

theorem legendEntry_color (i : Nat) (l c : String) :
    strOccurs c (legendEntry i l c) := by
  refine ⟨("\n        <rect x=\"40\" y=\"" ++ toString (300 + i * 18 - 10) ++
      "\" width=\"12\" height=\"12\" fill=\"").data,
    ("\" rx=\"2\"/>\n        <text x=\"60\" y=\"" ++ toString (300 + i * 18) ++
      "\" font-size=\"12\" fill=\"" ++ TEXT_COLOR ++ "\">\n          " ++
      l ++ "\n        </text>\n        ").data, ?_⟩
  simp [legendEntry, String.data_append]

theorem legendGo_occurs :
    ∀ (items : List (String × String)) (i : Nat) (p : String × String),
      p ∈ items →
      strOccurs p.1 (legendGo i items) ∧ strOccurs p.2 (legendGo i items) := by
  intro items
  induction items with
  | nil => intro i p hp; simp at hp
  | cons q rest ih =>
    intro i p hp
    obtain ⟨ql, qc⟩ := q
    rcases List.mem_cons.mp hp with hq | hp
    · subst hq
      exact ⟨strOccurs_append_left _ _ _ (legendEntry_label i ql qc),
             strOccurs_append_left _ _ _ (legendEntry_color i ql qc)⟩
    · obtain ⟨h1, h2⟩ := ih (i + 1) p hp
      exact ⟨strOccurs_append_right _ _ _ h1,
             strOccurs_append_right _ _ _ h2⟩

theorem legendItems_map (pies : List Wedge) :
    legendItems pies =
      (pies.map (fun w => (w.label, w.color))).foldl
        (fun acc p => dictSet p.1 p.2 acc) [] := by
  rw [legendItems, List.foldl_map]

/-- The legend string the script builds for the overview with a single "Go"
repository on both pies. -/
def legend0 : String := (renderLegend [("Go", 1)] [("Go", 1)]).getD ""

/-- Claim C8 counterexample: for a run whose only language is "Go" (its
percentage being 100), the legend block contains the label "Go" next to the
swatch, but neither the digits "100" nor a "%" sign occur anywhere in the
legend — the percentage is not rendered. -/
theorem C8_legend_no_percentage :
    ((pie_paths (top_n_with_other [("Go", 1)]) 170 160 85 52).map
        (fun ws => ws.map Wedge.percent)) = some [100]
    ∧ renderLegend [("Go", 1)] [("Go", 1)] = some legend0
    ∧ strOccurs "Go" legend0
    ∧ ¬strOccurs "100" legend0
    ∧ ¬strOccurs "%" legend0 := by
  with_unfolding_all decide

/-- Claim C8, amended: the inline legend maps color swatches to labels
only. Every entry of `legend_items` has its label and its color rendered in
the legend, and the legend depends only on the labels and colors of the
wedges — in particular it is unchanged when every wedge's percentage is
replaced, so percentages cannot appear in it. -/
theorem C8_legend_label_only (pies pies2 : List Wedge)
    (h : pies.map (fun w => (w.label, w.color))
      = pies2.map (fun w => (w.label, w.color))) :
    legendString pies = legendString pies2
    ∧ ∀ p ∈ legendItems pies,
        strOccurs p.1 (legendString pies)
        ∧ strOccurs p.2 (legendString pies) := by
  have hitems : legendItems pies = legendItems pies2 := by
    rw [legendItems_map, legendItems_map, h]
  exact ⟨by rw [legendString, legendString, hitems],
    fun p hp => legendGo_occurs (legendItems pies) 0 p hp⟩

/-- The wedges of the single-language overview pie. -/
def wsC8 : List Wedge :=
  (pie_paths (top_n_with_other [("Go", 1)]) 170 160 85 52).getD []

/-- The same wedges with every percentage replaced by 0. -/
def wsC8z : List Wedge := wsC8.map (fun w => { w with percent := 0 })

theorem C8_legend_label_only_witness :
    (wsC8.map (fun w => (w.label, w.color))
        = wsC8z.map (fun w => (w.label, w.color)))
    ∧ (legendString wsC8 = legendString wsC8z
        ∧ ∀ p ∈ legendItems wsC8,
            strOccurs p.1 (legendString wsC8)
            ∧ strOccurs p.2 (legendString wsC8)) :=
  ⟨by with_unfolding_all decide,
   C8_legend_label_only wsC8 wsC8z (by with_unfolding_all decide)⟩

end GenerateLangs
